import Mathlib

/-!
Verification of the chunked-download / backup / merge logic of
`minecraft-bedrock-update-backup.py`, shallowly embedded in Lean.

Conventions: bytes are `Nat`, file contents are partial maps `Nat → Option Nat`
(a position holds `some b` once it has been written), JSON string maps are
association lists, and the SHA-256 digest is an arbitrary function `sha` of the
byte string fed to it (the program only relies on it being a function).
Line numbers refer to `src/minecraft-bedrock-update-backup.py`.
-/

/-! ## Definitions: chunked downloader (lines 266-309) -/

/-- Embeds `chunk_size = 1024 * 1024` (line 281). -/
def chunk_size : Nat := 1024 * 1024

/-- Embeds `num_chunks = math.ceil(file_size / chunk_size)` (line 282),
with the exact ceiling on naturals. -/
def num_chunks (file_size : Nat) : Nat := (file_size + chunk_size - 1) / chunk_size

/-- Embeds the body of the chunk loop (lines 285-288): chunk `i` is
`(start, end)` with `start = i*chunk_size` and
`end = min(start + chunk_size - 1, file_size - 1)`, bounds inclusive. -/
def chunkRange (file_size i : Nat) : Nat × Nat :=
  (i * chunk_size, min (i * chunk_size + chunk_size - 1) (file_size - 1))

/-- Embeds the `chunks` list built by the loop at lines 283-288. -/
def chunks (file_size : Nat) : List (Nat × Nat) :=
  (List.range (num_chunks file_size)).map (chunkRange file_size)

/-- Embeds `f.seek(start); f.write(data)` (lines 299-300): a positioned write
of `data` at offset `start` into the partial file `f`. -/
def writeAt (f : Nat → Option Nat) (start : Nat) (data : List Nat) : Nat → Option Nat :=
  fun j => if start ≤ j then
      match data[(j - start)]? with
      | some b => some b
      | none => f j
    else f j

/-- The bytes of the source in the inclusive range `[a, b]` — what a correct
HTTP range request `bytes=a-b` returns. -/
def rangeBytes (src : Nat → Nat) (a b : Nat) : List Nat :=
  (List.range (b + 1 - a)).map (fun k => src (a + k))

/-- Embeds the `as_completed` write loop (lines 297-300) for a run in which
every range request succeeds, processing completions in the order given by
`order`: each completed chunk is written at its start offset. `fetch` models
`download_chunk` (lines 266-270), returning `none` when the request raises. -/
def applyWrites (fetch : Nat × Nat → Option (List Nat)) :
    List (Nat × Nat) → (Nat → Option Nat) → (Nat → Option Nat)
  | [], f => f
  | c :: rest, f => applyWrites fetch rest (writeAt f c.1 ((fetch c).getD []))

/-- Embeds the `as_completed` loop including the failure case: `future.result()`
re-raises the chunk's exception (modelled by `fetch c = none`), aborting the
loop. -/
def processWrites (fetch : Nat × Nat → Option (List Nat)) :
    List (Nat × Nat) → (Nat → Option Nat) → Option (Nat → Option Nat)
  | [], f => some f
  | c :: rest, f =>
    match fetch c with
    | some data => processWrites fetch rest (writeAt f c.1 data)
    | none => none

/-- Embeds `file_size = int(response.headers.get('content-length', 0))`
(line 278): a missing `content-length` header defaults the size to `0`. -/
def probe_file_size (contentLength : Option Nat) : Nat := contentLength.getD 0

/-- Observable outcome of the download try/except block (lines 275-309):
whether the output file is on disk afterwards, its contents, and the exit
code if the process exited (`some 1` from `exit(1)` in the handler). -/
structure DlOutcome where
  fileExists : Bool
  content : Nat → Option Nat
  exitCode : Option Nat

/-- Embeds the download try/except block (lines 275-309): open the output file
(`'wb'` creates it empty), process completed range requests in completion order
`order`, and on any raised chunk error delete the output file and `exit(1)`. -/
def downloadRun (fetch : Nat × Nat → Option (List Nat)) (order : List (Nat × Nat)) :
    DlOutcome :=
  match processWrites fetch order (fun _ => none) with
  | some f => { fileExists := true, content := f, exitCode := none }
  | none => { fileExists := false, content := fun _ => none, exitCode := some 1 }

/-! ## Definitions: version extraction (lines 244-256) -/

/-- Splits a character list into its longest leading digit run and the rest:
the greedy regex atom `\d+` (with emptiness meaning no match). -/
def spanDigits : List Char → List Char × List Char
  | [] => ([], [])
  | c :: t =>
    if c.isDigit then
      let p := spanDigits t
      (c :: p.1, p.2)
    else ([], c :: t)

/-- Matches the regex `\d+\.\d+\.\d+\.\d+` at the start of the list, returning
the matched characters and the remainder. The greedy `\d+` never backtracks
usefully here because `\.` cannot match a digit, so span-based parsing is
exactly the regex semantics. -/
def parseDotted4 (s : List Char) : Option (List Char × List Char) :=
  match spanDigits s with
  | (d1, '.' :: r1) =>
    if d1.isEmpty then none else
    match spanDigits r1 with
    | (d2, '.' :: r2) =>
      if d2.isEmpty then none else
      match spanDigits r2 with
      | (d3, '.' :: r3) =>
        if d3.isEmpty then none else
        match spanDigits r3 with
        | (d4, r4) =>
          if d4.isEmpty then none else
          some (d1 ++ '.' :: d2 ++ '.' :: d3 ++ '.' :: d4, r4)
      | _ => none
    | _ => none
  | _ => none

/-- The literal part of the pattern at line 245. -/
def bedrockLit : List Char := "bedrock-server-".toList

/-- Matches `bedrock-server-(\d+\.\d+\.\d+\.\d+)` at the start of the list,
returning the captured group. -/
def matchBedrockAt (s : List Char) : Option (List Char) :=
  if s.take bedrockLit.length = bedrockLit then
    (parseDotted4 (s.drop bedrockLit.length)).map Prod.fst
  else none

/-- Embeds `re.search` at line 245: try the pattern at each position, left to
right, and return the first match's captured group. -/
def regexSearch : List Char → Option (List Char)
  | [] => none
  | c :: t =>
    match matchBedrockAt (c :: t) with
    | some v => some v
    | none => regexSearch t

/-- Embeds lines 245-246: `version = version_match.group(1) if version_match
else "unknown"`. -/
def extract_version (url : String) : String :=
  match regexSearch url.toList with
  | some v => String.mk v
  | none => "unknown"

/-- The claim's reading of version extraction: the first `x.y.z.w` numeric
sequence anywhere in the URL, with no `bedrock-server-` context required.
This follows the claim's words and is compared against `extract_version`. -/
def firstDotted4 : List Char → Option (List Char)
  | [] => none
  | c :: t =>
    match parseDotted4 (c :: t) with
    | some p => some p.1
    | none => firstDotted4 t

/-- The version the claim says is extracted: first `x.y.z.w` in the URL,
`"unknown"` when there is none. -/
def claimed_version (url : String) : String :=
  match firstDotted4 url.toList with
  | some v => String.mk v
  | none => "unknown"

/-! ## Definitions: up-to-date gate (lines 227-256) -/

/-- Embeds Python's `str.strip()`: remove leading and trailing whitespace. -/
def pyStrip (s : String) : String :=
  String.mk (((s.data.dropWhile Char.isWhitespace).reverse.dropWhile Char.isWhitespace).reverse)

/-- Embeds lines 230-235: read `updater/server_version.txt` if present, strip
it, and normalise an empty result to `None`. -/
def read_local_version (fileContent : Option String) : Option String :=
  match fileContent with
  | none => none
  | some s => if (pyStrip s).data.isEmpty then none else some (pyStrip s)

/-- Python truthiness of the `local_version` variable (`None` or a string). -/
def pyTruthy (v : Option String) : Bool :=
  match v with
  | none => false
  | some s => !s.data.isEmpty

/-- Observable outcome of the up-to-date check (lines 250-256): whether control
reaches the download section, whether this branch wrote
`updater/download_link.txt`, and the exit code if `sys.exit` ran here. -/
structure GateOutcome where
  proceedsToDownload : Bool
  linkWritten : Bool
  exitCode : Option Nat

/-- Embeds `if not newInstall and local_version and local_version == version:`
(lines 250-256): on an up-to-date install, write the link file and exit 0;
otherwise fall through to the download section. -/
def upToDateGate (newInstall : Bool) (localVersion : Option String) (version : String) :
    GateOutcome :=
  if !newInstall && pyTruthy localVersion && (localVersion.getD "" == version) then
    { proceedsToDownload := false, linkWritten := true, exitCode := some 0 }
  else
    { proceedsToDownload := true, linkWritten := false, exitCode := none }

/-! ## Definitions: JSON string maps (Python dicts) as association lists -/

/-- Python dict lookup `m.get(k)` / `k in m`. -/
def lookup {α : Type} : List (String × α) → String → Option α
  | [], _ => none
  | p :: t, k => if p.1 = k then some p.2 else lookup t k

/-- Python `del m[k]` (all bindings of `k`; dict keys are unique anyway). -/
def eraseKey {α : Type} (m : List (String × α)) (k : String) : List (String × α) :=
  m.filter (fun p => p.1 != k)

/-- Python `m[k] = v`. -/
def insertKey {α : Type} (m : List (String × α)) (k : String) (v : α) :
    List (String × α) :=
  eraseKey m k ++ [(k, v)]

/-! ## Definitions: backup engine (lines 61-177) -/

/-- A top-level item of the install directory as `calculate_folder_hash` sees
it: either a file with its stat data, or a directory with its `os.walk`
enumeration `(relative path, size, mtime)`, files of each directory already
in the sorted order the code iterates them in. `mtime` is the modification
time; its exact scalar type is irrelevant to the hash, which only formats it. -/
inductive EntryData where
  | file (size : Nat) (mtime : Nat)
  | dir (walk : List (String × Nat × Nat))
deriving DecidableEq

/-- A named top-level item. -/
structure Entry where
  name : String
  data : EntryData
deriving DecidableEq

/-- The `f"{path}|{size}|{mtime}"` strings an entry feeds to the hasher
(lines 70 and 78). -/
def entryInfo (e : Entry) : List String :=
  match e.data with
  | EntryData.file size mtime => [e.name ++ "|" ++ toString size ++ "|" ++ toString mtime]
  | EntryData.dir walk => walk.map (fun w => w.1 ++ "|" ++ toString w.2.1 ++ "|" ++ toString w.2.2)

/-- Comparison used by `sorted(items_to_backup)` at line 65: by item name. -/
def entryLE (a b : Entry) : Prop := a.name ≤ b.name

instance : DecidableRel entryLE := fun a b => inferInstanceAs (Decidable (a.name ≤ b.name))

instance : IsTotal Entry entryLE := ⟨fun a b => le_total a.name b.name⟩

instance : IsTrans Entry entryLE := ⟨fun _ _ _ h1 h2 => le_trans h1 h2⟩

/-- Strict name comparison, used to show the sort is canonical when names are
distinct. -/
def entryLT (a b : Entry) : Prop := a.name < b.name

instance : IsAntisymm Entry entryLT := ⟨fun _ _ h1 h2 => absurd h1 (lt_asymm h2)⟩

/-- Embeds `sorted(items_to_backup)` at line 65. -/
def sortEntries (l : List Entry) : List Entry := l.insertionSort entryLE

/-- Embeds `calculate_folder_hash` (lines 61-81) up to the final SHA-256 call:
the sequence of strings fed to `hasher.update`, in order. The digest is `sha`
applied to this sequence, for an arbitrary function `sha`. -/
def calculate_folder_hash (entries : List Entry) : List String :=
  (sortEntries entries).foldl (fun acc e => acc ++ entryInfo e) []

/-- State `create_backup` (lines 100-177) runs against: the filtered top-level
entries, the persisted hash record, the set of archive files on disk, the
timestamp string of line 130, and whether an external `7z` binary was found. -/
structure BackupState where
  entries : List Entry
  hashRecord : List (String × String)
  archivesOnDisk : List String
  timestamp : String
  sevenZip : Bool

/-- Archive path of lines 135 and 151: `backup/Backup-<timestamp>.7z` when the
external 7z tool is used, `backup/Backup-<timestamp>.zip` otherwise. -/
def archiveFileName (ts : String) (sevenZip : Bool) : String :=
  if sevenZip then "backup/Backup-" ++ ts ++ ".7z" else "backup/Backup-" ++ ts ++ ".zip"

/-- Observable outcome of a successful `create_backup` run. -/
structure BackupOutcome where
  returnedPath : String
  createdNew : Bool
  record : List (String × String)
  archives : List String

/-- The archive-creation tail of `create_backup` (lines 129-169): write the
archive file, record `digest → path`, persist, and return the path. -/
def makeNewArchive (st : BackupState) (digest : String) (rec0 : List (String × String)) :
    BackupOutcome :=
  { returnedPath := archiveFileName st.timestamp st.sevenZip
    createdNew := true
    record := insertKey rec0 digest (archiveFileName st.timestamp st.sevenZip)
    archives := archiveFileName st.timestamp st.sevenZip :: st.archivesOnDisk }

/-- Embeds `create_backup` (lines 100-169, success path): hash the entries,
look the digest up in the loaded record, return the recorded archive when it
still exists on disk, evict the stale binding when it does not, and otherwise
create and record a new archive. -/
def create_backup (sha : List String → String) (st : BackupState) : BackupOutcome :=
  let digest := sha (calculate_folder_hash st.entries)
  match lookup st.hashRecord digest with
  | some existing =>
    if existing ∈ st.archivesOnDisk then
      { returnedPath := existing, createdNew := false,
        record := st.hashRecord, archives := st.archivesOnDisk }
    else
      makeNewArchive st digest (eraseKey st.hashRecord digest)
  | none => makeNewArchive st digest st.hashRecord

/-- Observable outcome of a `create_backup` run that raises. -/
structure FailOutcome where
  raised : Bool
  archives : List String

/-- Embeds the failure path of `create_backup` for a run in which the archive
file was created and a later step (`save_backup_hashes`) raises: the `except`
handler at lines 171-177 recomputes `backup_zip` as the `.zip` path — whatever
kind of archive was created — removes that path if present, and re-raises. -/
def create_backup_saveFail (st : BackupState) : FailOutcome :=
  let created := archiveFileName st.timestamp st.sevenZip
  let disk1 := created :: st.archivesOnDisk
  let zipPath := archiveFileName st.timestamp false
  { raised := true
    archives := if zipPath ∈ disk1 then disk1.erase zipPath else disk1 }

/-- The three states `updater/backup/backup_hashes.json` can be in, as
`load_backup_hashes` (lines 83-92) distinguishes them. -/
inductive HashFileState where
  | absent
  | unreadable
  | parsed (m : List (String × String))

/-- Embeds `load_backup_hashes` (lines 83-92): a missing file and a file whose
read or JSON parse raises both yield the empty mapping; it never raises. -/
def load_backup_hashes : HashFileState → List (String × String)
  | HashFileState.absent => []
  | HashFileState.unreadable => []
  | HashFileState.parsed m => m

/-! ## Definitions: merge engine (lines 357-389) -/

/-- Embeds `preserve_items` (lines 359-366). -/
def preserve_items : List String :=
  ["config", "behavior_packs", "resource_packs", "allowlist.json",
   "permissions.json", "server.properties"]

/-- Embeds the upgrade merge loop (lines 368-389): directories as finite maps
from top-level name to (abstract) content; for each source entry not in the
allow-list, delete the target entry and copy the source one over it; entries
in the allow-list are skipped. -/
def mergeUpgrade (source target : List (String × Nat)) : List (String × Nat) :=
  source.foldl (fun t e => if e.1 ∈ preserve_items then t else insertKey t e.1 e.2) target

/-! ## Theorems: download partition (C2) -/

theorem chunks_length (S : Nat) : (chunks S).length = num_chunks S := by
  simp [chunks]

theorem chunks_get (S i : Nat) (h : i < (chunks S).length) :
    (chunks S).get ⟨i, h⟩ =
      (i * chunk_size, min (i * chunk_size + chunk_size - 1) (S - 1)) := by
  simp [chunks, chunkRange]

theorem chunks_mem (S : Nat) {c : Nat × Nat} (hc : c ∈ chunks S) :
    ∃ i, i < num_chunks S ∧ c = chunkRange S i := by
  simp only [chunks, List.mem_map, List.mem_range] at hc
  obtain ⟨i, hi, rfl⟩ := hc
  exact ⟨i, hi, rfl⟩

theorem chunkRange_mem_chunks (S i : Nat) (hi : i < num_chunks S) :
    chunkRange S i ∈ chunks S := by
  simp only [chunks, List.mem_map]
  exact ⟨i, List.mem_range.mpr hi, rfl⟩

/-- Any byte index below the file size is covered by some chunk of the plan. -/
theorem chunks_cover (S i : Nat) (hi : i < S) :
    ∃ c ∈ chunks S, c.1 ≤ i ∧ i ≤ c.2 := by
  have hq : i / chunk_size < num_chunks S := by
    simp only [num_chunks, chunk_size]
    omega
  refine ⟨chunkRange S (i / chunk_size), chunkRange_mem_chunks S _ hq, ?_, ?_⟩
  · simp only [chunkRange, chunk_size]
    omega
  · simp only [chunkRange, chunk_size]
    omega

/-- Every chunk of the plan stays inside the file: `end ≤ S - 1` (and `S > 0`). -/
theorem chunks_inside (S : Nat) {c : Nat × Nat} (hc : c ∈ chunks S) :
    c.2 ≤ S - 1 ∧ 0 < S := by
  obtain ⟨i, hi, rfl⟩ := chunks_mem S hc
  constructor
  · exact min_le_right _ _
  · by_contra h
    have hS0 : S = 0 := by omega
    subst hS0
    simp [num_chunks, chunk_size] at hi

/-- C2: for every file size `S > 0`, the 1 MiB partition has exactly
`ceil(S / 2^20)` inclusive ranges, the first starts at `0`, the last ends at
`S - 1`, consecutive ranges are contiguous (`start_{i+1} = end_i + 1`), each
range is nonempty and covers at most `2^20` bytes, ranges are pairwise
non-overlapping, and `S = 2500000` yields the three ranges
`[0,1048575], [1048576,2097151], [2097152,2499999]`. -/
theorem claim_C2_partition (S : Nat) (hS : 0 < S) :
    (chunks S).length = (S + 2 ^ 20 - 1) / 2 ^ 20 ∧
    (∀ h0 : 0 < (chunks S).length, ((chunks S).get ⟨0, h0⟩).1 = 0) ∧
    (∀ hn : (chunks S).length - 1 < (chunks S).length,
       ((chunks S).get ⟨(chunks S).length - 1, hn⟩).2 = S - 1) ∧
    (∀ i, ∀ h : i + 1 < (chunks S).length,
       ((chunks S).get ⟨i + 1, h⟩).1 = ((chunks S).get ⟨i, by omega⟩).2 + 1) ∧
    (∀ i, ∀ h : i < (chunks S).length,
       ((chunks S).get ⟨i, h⟩).1 ≤ ((chunks S).get ⟨i, h⟩).2 ∧
       ((chunks S).get ⟨i, h⟩).2 + 1 - ((chunks S).get ⟨i, h⟩).1 ≤ 2 ^ 20) ∧
    (∀ i j, ∀ hi : i < (chunks S).length, ∀ hj : j < (chunks S).length, i < j →
       ((chunks S).get ⟨i, hi⟩).2 < ((chunks S).get ⟨j, hj⟩).1) ∧
    chunks 2500000 = [(0, 1048575), (1048576, 2097151), (2097152, 2499999)] := by
  refine ⟨?_, ?_, ?_, ?_, ?_, ?_, ?_⟩
  · simp only [chunks_length, num_chunks, chunk_size]
    norm_num
  · intro h0
    rw [chunks_get]
    simp
  · intro hn
    simp only [chunks_get, chunks_length] at hn ⊢
    simp only [num_chunks, chunk_size] at hn ⊢
    omega
  · intro i h
    simp only [chunks_get, chunks_length] at h ⊢
    simp only [num_chunks, chunk_size] at h ⊢
    omega
  · intro i h
    simp only [chunks_get, chunks_length] at h ⊢
    simp only [num_chunks, chunk_size] at h ⊢
    omega
  · intro i j hi hj hij
    simp only [chunks_get, chunks_length] at hi hj ⊢
    simp only [num_chunks, chunk_size] at hi hj ⊢
    omega
  · decide

/-- C2 witness: the partition of the concrete size 2500000 from the spec. -/
theorem claim_C2_partition_witness :
    chunks 2500000 = [(0, 1048575), (1048576, 2097151), (2097152, 2499999)] :=
  (claim_C2_partition 2500000 (by decide)).2.2.2.2.2.2

/-! ## Theorems: positioned writes and the download loop (C1, C4, C7) -/

theorem rangeBytes_getElem? (src : Nat → Nat) (a b k : Nat) :
    (rangeBytes src a b)[k]? = if k < b + 1 - a then some (src (a + k)) else none := by
  by_cases h : k < b + 1 - a
  · simp [rangeBytes, List.getElem?_map, List.getElem?_range, h]
  · have hlen : (rangeBytes src a b).length ≤ k := by
      simp only [rangeBytes, List.length_map, List.length_range]
      omega
    simp [List.getElem?_eq_none hlen, h]

/-- A positioned write of the correct range bytes acts pointwise: positions
inside `[c.1, c.2]` now hold the source byte, others keep their old value. -/
theorem writeAt_rangeBytes (src : Nat → Nat) (f : Nat → Option Nat) (c : Nat × Nat) (j : Nat) :
    writeAt f c.1 (rangeBytes src c.1 c.2) j =
      if c.1 ≤ j ∧ j ≤ c.2 then some (src j) else f j := by
  simp only [writeAt, rangeBytes_getElem?]
  by_cases h1 : c.1 ≤ j
  · by_cases h2 : j ≤ c.2
    · have hk : j - c.1 < c.2 + 1 - c.1 := by omega
      have hj : c.1 + (j - c.1) = j := by omega
      simp [h1, h2, hk, hj]
    · have hk : ¬(j - c.1 < c.2 + 1 - c.1) := by omega
      simp [h1, h2, hk]
  · have : ¬(c.1 ≤ j ∧ j ≤ c.2) := by omega
    simp [h1, this]

theorem processWrites_eq_applyWrites (fetch : Nat × Nat → Option (List Nat)) :
    ∀ (order : List (Nat × Nat)) (f : Nat → Option Nat),
      (∀ c ∈ order, (fetch c).isSome) →
      processWrites fetch order f = some (applyWrites fetch order f)
  | [], f, _ => rfl
  | c :: rest, f, h => by
    have hc : (fetch c).isSome := h c (List.mem_cons_self c rest)
    obtain ⟨d, hd⟩ := Option.isSome_iff_exists.mp hc
    simp only [processWrites, applyWrites, hd, Option.getD_some]
    exact processWrites_eq_applyWrites fetch rest _ (fun c' hc' => h c' (List.mem_cons_of_mem _ hc'))

/-- Evaluation of the write loop at a position no completed chunk covers:
the initial file value is unchanged. -/
theorem applyWrites_uncovered (src : Nat → Nat) (fetch : Nat × Nat → Option (List Nat)) :
    ∀ (order : List (Nat × Nat)) (f : Nat → Option Nat) (i : Nat),
      (∀ c ∈ order, fetch c = some (rangeBytes src c.1 c.2)) →
      (∀ c ∈ order, ¬(c.1 ≤ i ∧ i ≤ c.2)) →
      applyWrites fetch order f i = f i
  | [], _, _, _, _ => rfl
  | c :: rest, f, i, hf, hnc => by
    have hc : fetch c = some (rangeBytes src c.1 c.2) := hf c (List.mem_cons_self c rest)
    simp only [applyWrites, hc, Option.getD_some]
    rw [applyWrites_uncovered src fetch rest _ i
        (fun c' hc' => hf c' (List.mem_cons_of_mem _ hc'))
        (fun c' hc' => hnc c' (List.mem_cons_of_mem _ hc')),
      writeAt_rangeBytes, if_neg (hnc c (List.mem_cons_self c rest))]

/-- Evaluation of the write loop at a position covered by some completed chunk:
it holds the source byte, whatever the completion order. -/
theorem applyWrites_covered (src : Nat → Nat) (fetch : Nat × Nat → Option (List Nat)) :
    ∀ (order : List (Nat × Nat)) (f : Nat → Option Nat) (i : Nat),
      (∀ c ∈ order, fetch c = some (rangeBytes src c.1 c.2)) →
      (∃ c ∈ order, c.1 ≤ i ∧ i ≤ c.2) →
      applyWrites fetch order f i = some (src i)
  | [], _, _, _, hcov => by simp at hcov
  | c :: rest, f, i, hf, hcov => by
    have hc : fetch c = some (rangeBytes src c.1 c.2) := hf c (List.mem_cons_self c rest)
    have hfr : ∀ c' ∈ rest, fetch c' = some (rangeBytes src c'.1 c'.2) :=
      fun c' hc' => hf c' (List.mem_cons_of_mem _ hc')
    simp only [applyWrites, hc, Option.getD_some]
    by_cases hrest : ∃ c' ∈ rest, c'.1 ≤ i ∧ i ≤ c'.2
    · exact applyWrites_covered src fetch rest _ i hfr hrest
    · obtain ⟨c', hc', hcov'⟩ := hcov
      rcases List.mem_cons.mp hc' with rfl | hmem
      · have hnone : ∀ c'' ∈ rest, ¬(c''.1 ≤ i ∧ i ≤ c''.2) := by
          intro c'' h1 h2
          exact hrest ⟨c'', h1, h2⟩
        rw [applyWrites_uncovered src fetch rest _ i hfr hnone, writeAt_rangeBytes, if_pos hcov']
      · exact absurd ⟨c', hmem, hcov'⟩ hrest

/-- C1: when every range request returns exactly the requested bytes of the
source, the downloader succeeds and the output file holds exactly `S` bytes —
`some (src i)` at every `i < S` and nothing at `i ≥ S` — for every completion
order of the ranges. -/
theorem claim_C1_download_correct (S : Nat) (src : Nat → Nat)
    (fetch : Nat × Nat → Option (List Nat)) (order : List (Nat × Nat))
    (hfetch : ∀ c ∈ chunks S, fetch c = some (rangeBytes src c.1 c.2))
    (hperm : order.Perm (chunks S)) :
    (downloadRun fetch order).fileExists = true ∧
    (downloadRun fetch order).exitCode = none ∧
    (∀ i, i < S → (downloadRun fetch order).content i = some (src i)) ∧
    (∀ i, S ≤ i → (downloadRun fetch order).content i = none) := by
  have hfo : ∀ c ∈ order, fetch c = some (rangeBytes src c.1 c.2) :=
    fun c hc => hfetch c (hperm.mem_iff.mp hc)
  have hsome : ∀ c ∈ order, (fetch c).isSome := by
    intro c hc
    rw [hfo c hc]
    rfl
  have hrun : downloadRun fetch order =
      { fileExists := true, content := applyWrites fetch order (fun _ => none),
        exitCode := none } := by
    simp only [downloadRun, processWrites_eq_applyWrites fetch order _ hsome]
  refine ⟨by rw [hrun], by rw [hrun], ?_, ?_⟩
  · intro i hi
    rw [hrun]
    obtain ⟨c, hc, hcov⟩ := chunks_cover S i hi
    exact applyWrites_covered src fetch order _ i hfo ⟨c, hperm.mem_iff.mpr hc, hcov⟩
  · intro i hi
    rw [hrun]
    refine applyWrites_uncovered src fetch order _ i hfo ?_
    intro c hc hcov
    have h2 := chunks_inside S (hperm.mem_iff.mp hc)
    omega

/-- C1 witness: a 3-byte source in a single chunk, downloaded with exact
range responses, yields the source bytes and nothing past the end. -/
theorem claim_C1_download_correct_witness :
    (downloadRun (fun c => some (rangeBytes (fun i => i + 10) c.1 c.2)) (chunks 3)).content 1 =
        some 11 ∧
    (downloadRun (fun c => some (rangeBytes (fun i => i + 10) c.1 c.2)) (chunks 3)).content 3 =
        none := by
  have h := claim_C1_download_correct 3 (fun i => i + 10)
    (fun c => some (rangeBytes (fun i => i + 10) c.1 c.2)) (chunks 3)
    (fun c _ => rfl) (List.Perm.refl _)
  exact ⟨h.2.2.1 1 (by decide), h.2.2.2 3 (by decide)⟩

/-- A chunk error anywhere in the completion order makes the write loop raise. -/
theorem processWrites_none (fetch : Nat × Nat → Option (List Nat)) :
    ∀ (order : List (Nat × Nat)) (f : Nat → Option Nat),
      (∃ c ∈ order, fetch c = none) →
      processWrites fetch order f = none
  | [], _, h => by simp at h
  | c :: rest, f, h => by
    obtain ⟨c', hc', hfail⟩ := h
    rcases List.mem_cons.mp hc' with rfl | hmem
    · simp [processWrites, hfail]
    · cases hfc : fetch c with
      | none => simp [processWrites, hfc]
      | some data =>
        simp only [processWrites, hfc]
        exact processWrites_none fetch rest _ ⟨c', hmem, hfail⟩

/-- C4 counterexample: with no `content-length` header the probed size is `0`,
the partition is empty, and the download block succeeds — the (empty) output
file exists and no error exit is taken — contradicting the claim that the
downloader fails without producing an output file. -/
theorem claim_C4_counterexample :
    probe_file_size none = 0 ∧
    chunks (probe_file_size none) = [] ∧
    (downloadRun (fun _ => none) []).fileExists = true ∧
    (downloadRun (fun _ => none) []).exitCode = none := by
  refine ⟨rfl, by decide, rfl, rfl⟩

/-- C4 amended: when the metadata request yields no `content-length`, the size
defaults to `0`, the partition is empty, and the downloader completes
successfully, producing an empty output file instead of failing. -/
theorem claim_C4_missing_length_succeeds (fetch : Nat × Nat → Option (List Nat))
    (order : List (Nat × Nat))
    (hperm : order.Perm (chunks (probe_file_size none))) :
    (downloadRun fetch order).fileExists = true ∧
    (downloadRun fetch order).exitCode = none ∧
    (∀ i, (downloadRun fetch order).content i = none) := by
  have hnil : chunks (probe_file_size none) = [] := by decide
  have horder : order = [] := by
    rw [hnil] at hperm
    exact hperm.eq_nil
  subst horder
  exact ⟨rfl, rfl, fun i => rfl⟩

/-- C4 amended witness: the concrete empty run. -/
theorem claim_C4_missing_length_succeeds_witness :
    (downloadRun (fun _ => none) []).fileExists = true ∧
    (downloadRun (fun _ => none) []).content 0 = none := by
  have h := claim_C4_missing_length_succeeds (fun _ => none) [] (by decide)
  exact ⟨h.1, h.2.2 0⟩

/-- C7: if at least one range request raises, the whole download aborts — the
output file is deleted (it no longer exists and holds no bytes) and the
process exits with the non-zero status 1. -/
theorem claim_C7_chunk_failure_aborts (fetch : Nat × Nat → Option (List Nat))
    (order : List (Nat × Nat))
    (hfail : ∃ c ∈ order, fetch c = none) :
    (downloadRun fetch order).fileExists = false ∧
    (downloadRun fetch order).exitCode = some 1 ∧
    (∀ i, (downloadRun fetch order).content i = none) := by
  have h := processWrites_none fetch order (fun _ => none) hfail
  simp [downloadRun, h]

/-- C7 witness: a single failing range request aborts the download with
exit status 1 and no output file. -/
theorem claim_C7_chunk_failure_aborts_witness :
    (downloadRun (fun _ => none) [(0, 5)]).fileExists = false ∧
    (downloadRun (fun _ => none) [(0, 5)]).exitCode = some 1 := by
  have h := claim_C7_chunk_failure_aborts (fun _ => none) [(0, 5)]
    ⟨(0, 5), by simp, rfl⟩
  exact ⟨h.1, h.2.1⟩

/-! ## Theorems: version extraction (C8) -/

theorem spanDigits_append : ∀ s : List Char, (spanDigits s).1 ++ (spanDigits s).2 = s
  | [] => rfl
  | c :: t => by
    by_cases h : c.isDigit
    · simp only [spanDigits, h, if_true]
      simpa using spanDigits_append t
    · simp [spanDigits, h]

theorem spanDigits_digits : ∀ s : List Char, ∀ c ∈ (spanDigits s).1, c.isDigit = true
  | [] => by simp [spanDigits]
  | c :: t => by
    by_cases h : c.isDigit
    · simp only [spanDigits, h, if_true]
      intro c' hc'
      rcases List.mem_cons.mp hc' with rfl | hm
      · exact h
      · exact spanDigits_digits t c' hm
    · simp [spanDigits, h]

/-- Soundness of the `\d+\.\d+\.\d+\.\d+` matcher: a match decomposes the
input and has the dotted-quadruple shape with nonempty digit groups. -/
theorem parseDotted4_sound (s v r : List Char) (h : parseDotted4 s = some (v, r)) :
    v ++ r = s ∧ ∃ d1 d2 d3 d4,
      v = d1 ++ '.' :: (d2 ++ '.' :: (d3 ++ '.' :: d4)) ∧
      d1 ≠ [] ∧ d2 ≠ [] ∧ d3 ≠ [] ∧ d4 ≠ [] ∧
      (∀ c ∈ d1, c.isDigit = true) ∧ (∀ c ∈ d2, c.isDigit = true) ∧
      (∀ c ∈ d3, c.isDigit = true) ∧ (∀ c ∈ d4, c.isDigit = true) := by
  unfold parseDotted4 at h
  split at h <;> try simp at h
  rename_i d1 r1 heq1
  split at h <;> try simp at h
  rename_i d2 r2 heq2
  split at h <;> try simp at h
  rename_i d3 r3 heq3
  obtain ⟨hne1, hne2, hne3, hne4, hv, hr⟩ := h
  subst hv
  subst hr
  have e1 : d1 ++ '.' :: r1 = s := by
    have t := spanDigits_append s
    rw [heq1] at t
    exact t
  have e2 : d2 ++ '.' :: r2 = r1 := by
    have t := spanDigits_append r1
    rw [heq2] at t
    exact t
  have e3 : d3 ++ '.' :: r3 = r2 := by
    have t := spanDigits_append r2
    rw [heq3] at t
    exact t
  have e4 : (spanDigits r3).1 ++ (spanDigits r3).2 = r3 := spanDigits_append r3
  have g1 : ∀ c ∈ d1, c.isDigit = true := by
    intro c hc
    apply spanDigits_digits s
    rw [heq1]
    exact hc
  have g2 : ∀ c ∈ d2, c.isDigit = true := by
    intro c hc
    apply spanDigits_digits r1
    rw [heq2]
    exact hc
  have g3 : ∀ c ∈ d3, c.isDigit = true := by
    intro c hc
    apply spanDigits_digits r2
    rw [heq3]
    exact hc
  have g4 : ∀ c ∈ (spanDigits r3).1, c.isDigit = true := spanDigits_digits r3
  constructor
  · have key : d1 ++ '.' :: (d2 ++ '.' :: (d3 ++ '.' :: ((spanDigits r3).1 ++ (spanDigits r3).2))) = s := by
      rw [e4, e3, e2, e1]
    rw [← key]
    simp [List.append_assoc]
  · exact ⟨d1, d2, d3, (spanDigits r3).1, by simp, hne1, hne2, hne3, hne4, g1, g2, g3, g4⟩

/-- Soundness of the anchored pattern matcher: a match means the input starts
with `bedrock-server-` followed by a dotted numeric quadruple `v`. -/
theorem matchBedrockAt_sound (s v : List Char) (h : matchBedrockAt s = some v) :
    ∃ r, s = bedrockLit ++ v ++ r ∧ ∃ d1 d2 d3 d4,
      v = d1 ++ '.' :: (d2 ++ '.' :: (d3 ++ '.' :: d4)) ∧
      d1 ≠ [] ∧ d2 ≠ [] ∧ d3 ≠ [] ∧ d4 ≠ [] ∧
      (∀ c ∈ d1, c.isDigit = true) ∧ (∀ c ∈ d2, c.isDigit = true) ∧
      (∀ c ∈ d3, c.isDigit = true) ∧ (∀ c ∈ d4, c.isDigit = true) := by
  unfold matchBedrockAt at h
  split at h
  case isFalse => simp at h
  case isTrue htake =>
    cases hp : parseDotted4 (s.drop bedrockLit.length) with
    | none => rw [hp] at h; simp at h
    | some p =>
      rw [hp] at h
      simp only [Option.map_some'] at h
      obtain ⟨pv, pr⟩ := p
      obtain rfl : pv = v := by simpa using h
      obtain ⟨happ, hshape⟩ := parseDotted4_sound _ _ _ hp
      refine ⟨pr, ?_, hshape⟩
      have htd := List.take_append_drop bedrockLit.length s
      rw [htake, ← happ] at htd
      rw [← htd, List.append_assoc]

/-- If the search fails, the pattern matches at no position of the input. -/
theorem regexSearch_none_matches :
    ∀ s : List Char, regexSearch s = none → ∀ i, matchBedrockAt (s.drop i) = none
  | [], _, i => by
    rw [List.drop_nil]
    decide
  | c :: t, h, i => by
    unfold regexSearch at h
    cases hm : matchBedrockAt (c :: t) with
    | some v => rw [hm] at h; simp at h
    | none =>
      rw [hm] at h
      cases i with
      | zero => simpa using hm
      | succ j => simpa using regexSearch_none_matches t h j

/-- If the search returns `v`, it is the match at the leftmost matching
position: some position yields `v` and all earlier positions fail. -/
theorem regexSearch_some_matches :
    ∀ s v, regexSearch s = some v →
      ∃ i, matchBedrockAt (s.drop i) = some v ∧
        ∀ j, j < i → matchBedrockAt (s.drop j) = none
  | [], v, h => by simp [regexSearch] at h
  | c :: t, v, h => by
    unfold regexSearch at h
    cases hm : matchBedrockAt (c :: t) with
    | some w =>
      rw [hm] at h
      obtain rfl : w = v := by simpa using h
      exact ⟨0, by simpa using hm, fun j hj => absurd hj (Nat.not_lt_zero j)⟩
    | none =>
      rw [hm] at h
      obtain ⟨i, hi, hlt⟩ := regexSearch_some_matches t v h
      refine ⟨i + 1, by simpa using hi, ?_⟩
      intro j hj
      cases j with
      | zero => simpa using hm
      | succ j' => simpa using hlt j' (by omega)

/-- C8 counterexample: a URL whose first `x.y.z.w` numeric sequence is
`1.2.3.4` but whose extracted version is `5.6.7.8` — the code anchors the
version to the `bedrock-server-` literal, not to the first `x.y.z.w` match. -/
theorem claim_C8_counterexample :
    extract_version "https://x.example/1.2.3.4/bedrock-server-5.6.7.8.zip" = "5.6.7.8" ∧
    claimed_version "https://x.example/1.2.3.4/bedrock-server-5.6.7.8.zip" = "1.2.3.4" ∧
    extract_version "https://x.example/1.2.3.4/bedrock-server-5.6.7.8.zip" ≠
      claimed_version "https://x.example/1.2.3.4/bedrock-server-5.6.7.8.zip" := by
  refine ⟨by decide, by decide, by decide⟩

/-- C8 amended: the version is the dotted quadruple captured at the first
position of the URL where `bedrock-server-x.y.z.w` matches (not the first
`x.y.z.w` anywhere); when no position matches, the version is the string
`"unknown"`, and the up-to-date gate then proceeds with the download whenever
the stored local version is not itself the literal `"unknown"`. -/
theorem claim_C8_version_extraction (url : String) :
    (regexSearch url.toList = none →
       extract_version url = "unknown" ∧
       (∀ i, matchBedrockAt (url.toList.drop i) = none) ∧
       (∀ l : String, l ≠ "unknown" →
          (upToDateGate false (some l) (extract_version url)).proceedsToDownload = true)) ∧
    (∀ v, regexSearch url.toList = some v →
       extract_version url = String.mk v ∧
       ∃ i r, matchBedrockAt (url.toList.drop i) = some v ∧
         (∀ j, j < i → matchBedrockAt (url.toList.drop j) = none) ∧
         url.toList.drop i = bedrockLit ++ v ++ r ∧
         ∃ d1 d2 d3 d4, v = d1 ++ '.' :: (d2 ++ '.' :: (d3 ++ '.' :: d4)) ∧
           d1 ≠ [] ∧ d2 ≠ [] ∧ d3 ≠ [] ∧ d4 ≠ [] ∧
           (∀ c ∈ d1, c.isDigit = true) ∧ (∀ c ∈ d2, c.isDigit = true) ∧
           (∀ c ∈ d3, c.isDigit = true) ∧ (∀ c ∈ d4, c.isDigit = true)) := by
  constructor
  · intro hnone
    have hv : extract_version url = "unknown" := by
      unfold extract_version
      rw [hnone]
    refine ⟨hv, regexSearch_none_matches url.toList hnone, ?_⟩
    intro l hl
    rw [hv]
    have hbeq : (l == "unknown") = false := by
      simpa using hl
    simp [upToDateGate, hbeq]
  · intro v hsome
    have hv : extract_version url = String.mk v := by
      unfold extract_version
      rw [hsome]
    obtain ⟨i, hi, hlt⟩ := regexSearch_some_matches url.toList v hsome
    obtain ⟨r, hdec, hshape⟩ := matchBedrockAt_sound _ v hi
    exact ⟨hv, i, r, hi, hlt, hdec, hshape⟩

/-- C8 amended witness: a concrete URL with the `bedrock-server-` pattern. -/
theorem claim_C8_version_extraction_witness :
    extract_version "https://a.example/bin/bedrock-server-1.21.0.3.zip" = "1.21.0.3" := by
  have h := (claim_C8_version_extraction "https://a.example/bin/bedrock-server-1.21.0.3.zip").2
    ("1.21.0.3".toList) (by decide)
  exact h.1

/-! ## Theorems: up-to-date gate (C9) -/

/-- A stored local version read back from the file is never the empty string. -/
theorem read_local_version_ne_empty (fc : Option String) (v : String)
    (h : read_local_version fc = some v) : v.data.isEmpty = false := by
  cases fc with
  | none => simp [read_local_version] at h
  | some s =>
    simp only [read_local_version] at h
    by_cases he : (pyStrip s).data.isEmpty
    · rw [if_pos he] at h
      simp at h
    · rw [if_neg he] at h
      obtain rfl : pyStrip s = v := by simpa using h
      simpa using he

/-- C9: when an installation exists and the stored local version equals the
remote version, the up-to-date gate writes the link file and exits with
status 0 without ever reaching the download section. -/
theorem claim_C9_up_to_date_skip (fc : Option String) (v version : String)
    (hread : read_local_version fc = some v) (hver : v = version) :
    upToDateGate false (read_local_version fc) version =
      { proceedsToDownload := false, linkWritten := true, exitCode := some 0 } := by
  subst hver
  rw [hread]
  have hne := read_local_version_ne_empty fc v hread
  simp [upToDateGate, pyTruthy, hne]

/-- C9 witness: stored version `1.21.0.3` (with a trailing newline in the
file) equal to the remote version skips the download and exits 0. -/
theorem claim_C9_up_to_date_skip_witness :
    upToDateGate false (read_local_version (some "1.21.0.3\n")) "1.21.0.3" =
      { proceedsToDownload := false, linkWritten := true, exitCode := some 0 } :=
  claim_C9_up_to_date_skip (some "1.21.0.3\n") "1.21.0.3" "1.21.0.3" (by decide) rfl

/-! ## Theorems: association-list maps -/

theorem lookup_append_left_none {α : Type} (m₁ m₂ : List (String × α)) (k : String)
    (h : ∀ p ∈ m₁, p.1 ≠ k) : lookup (m₁ ++ m₂) k = lookup m₂ k := by
  induction m₁ with
  | nil => rfl
  | cons p t ih =>
    have hp : p.1 ≠ k := h p (List.mem_cons_self p t)
    simp only [List.cons_append, lookup, if_neg hp]
    exact ih (fun q hq => h q (List.mem_cons_of_mem _ hq))

theorem eraseKey_keys {α : Type} (m : List (String × α)) (k : String) :
    ∀ p ∈ eraseKey m k, p.1 ≠ k := by
  intro p hp
  have := List.of_mem_filter hp
  simpa using this

theorem lookup_insertKey_self {α : Type} (m : List (String × α)) (k : String) (v : α) :
    lookup (insertKey m k v) k = some v := by
  rw [insertKey, lookup_append_left_none _ _ _ (eraseKey_keys m k)]
  simp [lookup]

theorem lookup_eraseKey_ne {α : Type} (m : List (String × α)) (k k' : String)
    (h : k' ≠ k) : lookup (eraseKey m k) k' = lookup m k' := by
  induction m with
  | nil => rfl
  | cons p t ih =>
    by_cases hp : p.1 = k
    · have hp' : p.1 ≠ k' := by
        rw [hp]
        exact fun he => h he.symm
      simp only [eraseKey, List.filter_cons]
      rw [if_neg (by simpa using hp)]
      rw [show List.filter (fun p => p.1 != k) t = eraseKey t k from rfl, ih]
      simp [lookup, if_neg hp']
    · simp only [eraseKey, List.filter_cons]
      rw [if_pos (by simpa using hp)]
      simp only [lookup]
      by_cases hk' : p.1 = k'
      · simp [hk']
      · rw [if_neg hk', if_neg hk']
        exact ih

theorem lookup_insertKey_ne {α : Type} (m : List (String × α)) (k : String) (v : α)
    (k' : String) (h : k' ≠ k) : lookup (insertKey m k v) k' = lookup m k' := by
  rw [insertKey]
  have hkk : ¬k = k' := fun he => h he.symm
  have hsingle : lookup [(k, v)] k' = (none : Option α) := by
    simp [lookup, hkk]
  induction m with
  | nil =>
    simp only [eraseKey, List.filter_nil, List.nil_append]
    rw [hsingle]
    rfl
  | cons p t ih =>
    by_cases hp : p.1 = k
    · simp only [eraseKey, List.filter_cons]
      rw [if_neg (by simpa using hp)]
      have hp' : p.1 ≠ k' := by
        rw [hp]
        exact fun he => h he.symm
      simp only [lookup, if_neg hp']
      exact ih
    · simp only [eraseKey, List.filter_cons]
      rw [if_pos (by simpa using hp)]
      simp only [List.cons_append, lookup]
      by_cases hk' : p.1 = k'
      · simp [hk']
      · rw [if_neg hk', if_neg hk']
        exact ih

/-! ## Theorems: backup engine (C3, C5, C10) -/

theorem sortEntries_perm (l : List Entry) : (sortEntries l).Perm l :=
  List.perm_insertionSort entryLE l

theorem sortEntries_sorted (l : List Entry) : List.Sorted entryLE (sortEntries l) :=
  List.sorted_insertionSort entryLE l

/-- Entry lists with pairwise-distinct names sorted by name are canonical:
permuted inputs sort to the same list. This is what `sorted(...)` at line 65
is for — the directory listing order does not affect the hash. -/
theorem sortEntries_eq_of_perm (l₁ l₂ : List Entry) (hp : l₁.Perm l₂)
    (hn : (l₁.map Entry.name).Nodup) : sortEntries l₁ = sortEntries l₂ := by
  have hperm : (sortEntries l₁).Perm (sortEntries l₂) :=
    (sortEntries_perm l₁).trans (hp.trans (sortEntries_perm l₂).symm)
  have hmk : ∀ l : List Entry, (l.map Entry.name).Nodup →
      (sortEntries l).Pairwise entryLT := by
    intro l hl
    have hnodup : ((sortEntries l).map Entry.name).Nodup := by
      have hm : ((sortEntries l).map Entry.name).Perm (l.map Entry.name) :=
        (sortEntries_perm l).map Entry.name
      exact hm.nodup_iff.mpr hl
    have hpw : (sortEntries l).Pairwise (fun a b : Entry => a.name ≠ b.name) :=
      List.pairwise_map.mp hnodup
    have hle : (sortEntries l).Pairwise entryLE := sortEntries_sorted l
    refine List.Pairwise.imp ?_ (hle.and hpw)
    intro a b hab
    exact lt_of_le_of_ne hab.1 hab.2
  have hn₂ : (l₂.map Entry.name).Nodup := ((hp.map Entry.name).nodup_iff).mp hn
  exact List.eq_of_perm_of_sorted hperm (hmk l₁ hn) (hmk l₂ hn₂)

/-- The content fingerprint is invariant under the directory listing order. -/
theorem calculate_folder_hash_perm (l₁ l₂ : List Entry) (hp : l₁.Perm l₂)
    (hn : (l₁.map Entry.name).Nodup) :
    calculate_folder_hash l₁ = calculate_folder_hash l₂ := by
  unfold calculate_folder_hash
  rw [sortEntries_eq_of_perm l₁ l₂ hp hn]

/-- After any `create_backup` run, the record maps the digest of the hashed
entries to the returned archive path. -/
theorem create_backup_lookup (sha : List String → String) (st : BackupState) :
    lookup (create_backup sha st).record (sha (calculate_folder_hash st.entries)) =
      some (create_backup sha st).returnedPath := by
  simp only [create_backup]
  cases hl : lookup st.hashRecord (sha (calculate_folder_hash st.entries)) with
  | some existing =>
    simp only
    split
    · simpa using hl
    · simp [makeNewArchive, lookup_insertKey_self]
  | none => simp [makeNewArchive, lookup_insertKey_self]

/-- C3: with the backed-up entries unchanged (up to directory listing order,
names distinct), a second `create_backup` run against the record left by the
first computes the same content hash; if the recorded archive still exists on
disk it is returned with no new archive created and no state change, and if it
is missing the stale binding is evicted and a new archive is created and
recorded. -/
theorem claim_C3_backup_dedup (sha : List String → String) (st1 st2 : BackupState)
    (hnames : (st1.entries.map Entry.name).Nodup)
    (hentries : st2.entries.Perm st1.entries)
    (hrec : st2.hashRecord = (create_backup sha st1).record) :
    calculate_folder_hash st2.entries = calculate_folder_hash st1.entries ∧
    ((create_backup sha st1).returnedPath ∈ st2.archivesOnDisk →
       (create_backup sha st2).returnedPath = (create_backup sha st1).returnedPath ∧
       (create_backup sha st2).createdNew = false ∧
       (create_backup sha st2).record = st2.hashRecord ∧
       (create_backup sha st2).archives = st2.archivesOnDisk) ∧
    ((create_backup sha st1).returnedPath ∉ st2.archivesOnDisk →
       (create_backup sha st2).createdNew = true ∧
       (create_backup sha st2).returnedPath = archiveFileName st2.timestamp st2.sevenZip ∧
       lookup (create_backup sha st2).record (sha (calculate_folder_hash st2.entries)) =
         some (archiveFileName st2.timestamp st2.sevenZip)) := by
  have hnames₂ : (st2.entries.map Entry.name).Nodup :=
    ((hentries.map Entry.name).nodup_iff).mpr hnames
  have hhash : calculate_folder_hash st2.entries = calculate_folder_hash st1.entries :=
    calculate_folder_hash_perm st2.entries st1.entries hentries hnames₂
  have hlk : lookup st2.hashRecord (sha (calculate_folder_hash st2.entries)) =
      some (create_backup sha st1).returnedPath := by
    rw [hrec, hhash]
    exact create_backup_lookup sha st1
  set r1 := create_backup sha st1 with hr1
  refine ⟨hhash, ?_, ?_⟩
  · intro hmem
    simp only [create_backup, hlk]
    rw [if_pos hmem]
    exact ⟨rfl, rfl, rfl, rfl⟩
  · intro hmem
    simp only [create_backup, makeNewArchive, hlk]
    rw [if_neg hmem]
    exact ⟨rfl, rfl, lookup_insertKey_self _ _ _⟩

/-- C3 witness: one file entry, a first run recording a fresh archive, and a
second run against the resulting state returning the same archive with no new
archive created. -/
theorem claim_C3_backup_dedup_witness :
    (create_backup (fun _ => "h")
        ⟨[⟨"worlds", EntryData.file 5 7⟩],
         (create_backup (fun _ => "h") ⟨[⟨"worlds", EntryData.file 5 7⟩], [], [], "t1", false⟩).record,
         (create_backup (fun _ => "h") ⟨[⟨"worlds", EntryData.file 5 7⟩], [], [], "t1", false⟩).archives,
         "t2", false⟩).createdNew = false ∧
    (create_backup (fun _ => "h")
        ⟨[⟨"worlds", EntryData.file 5 7⟩],
         (create_backup (fun _ => "h") ⟨[⟨"worlds", EntryData.file 5 7⟩], [], [], "t1", false⟩).record,
         (create_backup (fun _ => "h") ⟨[⟨"worlds", EntryData.file 5 7⟩], [], [], "t1", false⟩).archives,
         "t2", false⟩).returnedPath =
      (create_backup (fun _ => "h") ⟨[⟨"worlds", EntryData.file 5 7⟩], [], [], "t1", false⟩).returnedPath := by
  have h := claim_C3_backup_dedup (fun _ => "h")
    ⟨[⟨"worlds", EntryData.file 5 7⟩], [], [], "t1", false⟩
    ⟨[⟨"worlds", EntryData.file 5 7⟩],
     (create_backup (fun _ => "h") ⟨[⟨"worlds", EntryData.file 5 7⟩], [], [], "t1", false⟩).record,
     (create_backup (fun _ => "h") ⟨[⟨"worlds", EntryData.file 5 7⟩], [], [], "t1", false⟩).archives,
     "t2", false⟩
    (by decide) (List.Perm.refl _) rfl
  have hm := h.2.1 (by decide)
  exact ⟨hm.2.1, hm.1⟩

/-- The `.zip` and `.7z` archive paths for the same timestamp differ. -/
theorem archiveFileName_zip_ne_seven (ts : String) :
    archiveFileName ts false ≠ archiveFileName ts true := by
  intro he
  simp only [archiveFileName, if_pos, if_neg] at he
  have h := congrArg String.length he
  simp [String.length_append] at h
  have e1 : (".zip" : String).length = 4 := rfl
  have e2 : (".7z" : String).length = 3 := rfl
  omega

/-- C5 counterexample: the archive was created with the external 7z tool and a
later step raised; the handler re-raises, but the partially written `.7z`
archive is still on disk — the cleanup removes only the `.zip` path —
contradicting the claim that the partial archive is removed. -/
theorem claim_C5_counterexample :
    (create_backup_saveFail ⟨[], [], [], "20240101-000000", true⟩).raised = true ∧
    archiveFileName "20240101-000000" true ∈
      (create_backup_saveFail ⟨[], [], [], "20240101-000000", true⟩).archives := by
  refine ⟨rfl, by decide⟩

/-- C5 amended: when a step after archive creation raises, the error is always
re-raised, and the cleanup targets only the `.zip` fallback path: with the zip
fallback the partial archive is removed, but with the external 7z tool the
partially written `.7z` archive remains on disk. -/
theorem claim_C5_cleanup_zip_only (st : BackupState)
    (hfresh : archiveFileName st.timestamp false ∉ st.archivesOnDisk) :
    (create_backup_saveFail st).raised = true ∧
    (st.sevenZip = false →
       archiveFileName st.timestamp false ∉ (create_backup_saveFail st).archives) ∧
    (st.sevenZip = true →
       archiveFileName st.timestamp true ∈ (create_backup_saveFail st).archives) := by
  refine ⟨rfl, ?_, ?_⟩
  · intro h7
    simp only [create_backup_saveFail, h7]
    rw [if_pos (List.mem_cons_self _ _), List.erase_cons_head]
    exact hfresh
  · intro h7
    simp only [create_backup_saveFail, h7]
    have hne : archiveFileName st.timestamp false ∉
        archiveFileName st.timestamp true :: st.archivesOnDisk := by
      intro hmem
      rcases List.mem_cons.mp hmem with he | hm
      · exact archiveFileName_zip_ne_seven st.timestamp he
      · exact hfresh hm
    rw [if_neg hne]
    exact List.mem_cons_self _ _

/-- C5 amended witness: concrete zip-fallback and 7z runs. -/
theorem claim_C5_cleanup_zip_only_witness :
    (create_backup_saveFail ⟨[], [], [], "t", true⟩).raised = true ∧
    archiveFileName "t" true ∈ (create_backup_saveFail ⟨[], [], [], "t", true⟩).archives ∧
    archiveFileName "t" false ∉ (create_backup_saveFail ⟨[], [], [], "t", false⟩).archives := by
  have h1 := claim_C5_cleanup_zip_only ⟨[], [], [], "t", true⟩ (by decide)
  have h2 := claim_C5_cleanup_zip_only ⟨[], [], [], "t", false⟩ (by decide)
  exact ⟨h1.1, h1.2.2 rfl, h2.2.1 rfl⟩

/-! ## Theorems: merge engine (C6) -/

theorem mergeUpgrade_cons (e : String × Nat) (rest : List (String × Nat))
    (target : List (String × Nat)) :
    mergeUpgrade (e :: rest) target =
      mergeUpgrade rest (if e.1 ∈ preserve_items then target else insertKey target e.1 e.2) :=
  rfl

/-- Entries on the preserve allow-list are untouched by the upgrade merge. -/
theorem lookup_mergeUpgrade_preserved :
    ∀ (source target : List (String × Nat)) (name : String), name ∈ preserve_items →
      lookup (mergeUpgrade source target) name = lookup target name
  | [], _, _, _ => rfl
  | e :: rest, target, name, hmem => by
    rw [mergeUpgrade_cons]
    rw [lookup_mergeUpgrade_preserved rest _ name hmem]
    by_cases he : e.1 ∈ preserve_items
    · rw [if_pos he]
    · rw [if_neg he]
      have hne : name ≠ e.1 := fun h => he (h ▸ hmem)
      exact lookup_insertKey_ne target e.1 e.2 name hne

/-- Names bound by no source entry are untouched by the upgrade merge. -/
theorem lookup_mergeUpgrade_absent :
    ∀ (source target : List (String × Nat)) (name : String),
      (∀ p ∈ source, p.1 ≠ name) →
      lookup (mergeUpgrade source target) name = lookup target name
  | [], _, _, _ => rfl
  | e :: rest, target, name, habs => by
    rw [mergeUpgrade_cons]
    rw [lookup_mergeUpgrade_absent rest _ name
      (fun p hp => habs p (List.mem_cons_of_mem _ hp))]
    by_cases he : e.1 ∈ preserve_items
    · rw [if_pos he]
    · rw [if_neg he]
      have hne : name ≠ e.1 := fun h => habs e (List.mem_cons_self e rest) h.symm
      exact lookup_insertKey_ne target e.1 e.2 name hne

/-- Source entries outside the allow-list end up in the merged directory. -/
theorem lookup_mergeUpgrade_replaced :
    ∀ (source target : List (String × Nat)) (name : String) (v : Nat),
      (source.map Prod.fst).Nodup → name ∉ preserve_items →
      lookup source name = some v →
      lookup (mergeUpgrade source target) name = some v
  | [], _, _, _, _, _, h => by simp [lookup] at h
  | e :: rest, target, name, v, hnd, hnp, h => by
    rw [mergeUpgrade_cons]
    by_cases he : e.1 = name
    · have hv : v = e.2 := by
        simp only [lookup, if_pos he] at h
        exact (Option.some.injEq _ _ ▸ h).symm
      have hrest : ∀ p ∈ rest, p.1 ≠ name := by
        intro p hp hpe
        have : e.1 ∈ rest.map Prod.fst := by
          rw [he, ← hpe]
          exact List.mem_map_of_mem Prod.fst hp
        simp only [List.map_cons, List.nodup_cons] at hnd
        exact hnd.1 this
      rw [lookup_mergeUpgrade_absent rest _ name hrest]
      rw [if_neg (he ▸ hnp)]
      rw [he, hv]
      exact lookup_insertKey_self target name e.2
    · have h' : lookup rest name = some v := by
        simpa [lookup, if_neg he] using h
      have hnd' : (rest.map Prod.fst).Nodup := by
        simp only [List.map_cons, List.nodup_cons] at hnd
        exact hnd.2
      exact lookup_mergeUpgrade_replaced rest _ name v hnd' hnp h'

/-- C6: in upgrade mode, every allow-listed name keeps exactly its target
(install-directory) content — even when the source has an entry of that
name — and every source entry outside the allow-list replaces the target
entry. -/
theorem claim_C6_upgrade_merge (source target : List (String × Nat))
    (hnd : (source.map Prod.fst).Nodup) (name : String) (v : Nat) :
    (name ∈ preserve_items →
       lookup (mergeUpgrade source target) name = lookup target name) ∧
    (name ∉ preserve_items → lookup source name = some v →
       lookup (mergeUpgrade source target) name = some v) :=
  ⟨fun h => lookup_mergeUpgrade_preserved source target name h,
   fun h1 h2 => lookup_mergeUpgrade_replaced source target name v hnd h1 h2⟩

/-- C6 witness: `config` exists in both source and target and keeps the target
content; `bedrock_server` is replaced by the source content. -/
theorem claim_C6_upgrade_merge_witness :
    lookup (mergeUpgrade [("config", 1), ("bedrock_server", 2)]
      [("config", 9), ("bedrock_server", 7)]) "config" = some 9 ∧
    lookup (mergeUpgrade [("config", 1), ("bedrock_server", 2)]
      [("config", 9), ("bedrock_server", 7)]) "bedrock_server" = some 2 := by
  have h1 := (claim_C6_upgrade_merge [("config", 1), ("bedrock_server", 2)]
    [("config", 9), ("bedrock_server", 7)] (by decide) "config" 9).1 (by decide)
  have h2 := (claim_C6_upgrade_merge [("config", 1), ("bedrock_server", 2)]
    [("config", 9), ("bedrock_server", 7)] (by decide) "bedrock_server" 2).2
    (by decide) (by decide)
  exact ⟨h1.trans (by decide), h2⟩

/-! ## Theorems: hash-record loading (C10) -/

/-- C10: loading the persisted hash record is total — an absent file and a
file whose read or parse raises both yield the empty mapping — and a backup
run against such a record finds no binding for any digest and therefore
creates a new archive. -/
theorem claim_C10_load_hashes_total (fs : HashFileState) (sha : List String → String)
    (entries : List Entry) (archives : List String) (ts : String) (s7 : Bool) :
    (fs = HashFileState.absent → load_backup_hashes fs = []) ∧
    (fs = HashFileState.unreadable → load_backup_hashes fs = []) ∧
    ((fs = HashFileState.absent ∨ fs = HashFileState.unreadable) →
       (create_backup sha ⟨entries, load_backup_hashes fs, archives, ts, s7⟩).createdNew = true ∧
       (create_backup sha ⟨entries, load_backup_hashes fs, archives, ts, s7⟩).returnedPath =
         archiveFileName ts s7) := by
  refine ⟨?_, ?_, ?_⟩
  · intro h
    subst h
    rfl
  · intro h
    subst h
    rfl
  · intro h
    have hload : load_backup_hashes fs = [] := by
      rcases h with rfl | rfl <;> rfl
    simp [create_backup, hload, lookup, makeNewArchive]

/-- C10 witness: a corrupted hash file loads as the empty mapping and the
following backup run creates a new archive. -/
theorem claim_C10_load_hashes_total_witness :
    load_backup_hashes HashFileState.unreadable = [] ∧
    (create_backup (fun _ => "h")
      ⟨[], load_backup_hashes HashFileState.unreadable, [], "t", false⟩).createdNew = true := by
  have h := claim_C10_load_hashes_total HashFileState.unreadable (fun _ => "h") [] [] "t" false
  exact ⟨h.2.1 rfl, (h.2.2 (Or.inr rfl)).1⟩
